import Mathlib

/-!
Verification development for the CaptionFlow caption editor.

JavaScript strings are modelled as `List Char`, JavaScript numbers as
exact rationals `ℚ` (the floating-point representation is abstracted to
exact arithmetic; `NaN`/`Infinity` are not representable, which the
definitions note where the source tests `isFinite`).  Every definition is
translated from the TypeScript source of the repository
(`src/utils.ts`, `src/App.tsx`, `src/components/Timeline.tsx`,
`src/components/VideoPlayer.tsx`, `src/types.ts`).
-/

/-! ### Decimal digits: printing and reading

`Number.prototype.toString` / `padStart` / `parseFloat` are JavaScript
builtins; the fragments below model exactly the decimal behaviour the
application exercises (non-negative decimal literals with an optional
sign and fraction; exponents and `Infinity` never occur in timestamps). -/

/-- The decimal digit character for `d < 10` (JS number printing). -/
def digitChar : ℕ → Char
  | 0 => '0'
  | 1 => '1'
  | 2 => '2'
  | 3 => '3'
  | 4 => '4'
  | 5 => '5'
  | 6 => '6'
  | 7 => '7'
  | 8 => '8'
  | 9 => '9'
  | _ => '*'

/-- Decimal digits of `n`, least-significant first, with explicit fuel
(the fuel is always instantiated with `n` itself, which suffices). -/
def digitsAux : ℕ → ℕ → List ℕ
  | 0, _ => []
  | fuel + 1, n => if n = 0 then [] else n % 10 :: digitsAux fuel (n / 10)

/-- Value of a least-significant-first digit list. -/
def valRev : List ℕ → ℕ
  | [] => 0
  | d :: ds => d + 10 * valRev ds

/-- Model of `n.toString()` for a natural number (JS prints `0` as `"0"`). -/
def natRepr (n : ℕ) : List Char :=
  if n = 0 then ['0'] else ((digitsAux n n).map digitChar).reverse

/-- Numeric value of a most-significant-first digit string
(the accumulator loop underlying decimal parsing). -/
def digitsVal (cs : List Char) : ℕ :=
  cs.foldl (fun a c => 10 * a + (c.toNat - 48)) 0

theorem valRev_digitsAux : ∀ fuel n, n ≤ fuel → valRev (digitsAux fuel n) = n := by
  intro fuel
  induction fuel with
  | zero => intro n h; interval_cases n; rfl
  | succ f ih =>
    intro n h
    by_cases hn : n = 0
    · subst hn; simp [digitsAux, valRev]
    · have hdiv : n / 10 ≤ f := by
        have h1 : n / 10 < n := Nat.div_lt_self (Nat.pos_of_ne_zero hn) (by omega)
        omega
      simp only [digitsAux, if_neg hn, valRev, ih _ hdiv]
      omega

theorem digitsAux_lt_ten : ∀ fuel n d, d ∈ digitsAux fuel n → d < 10 := by
  intro fuel
  induction fuel with
  | zero => intro n d h; simp [digitsAux] at h
  | succ f ih =>
    intro n d h
    by_cases hn : n = 0
    · subst hn; simp [digitsAux] at h
    · simp only [digitsAux, if_neg hn, List.mem_cons] at h
      rcases h with h | h
      · subst h; exact Nat.mod_lt _ (by omega)
      · exact ih _ _ h

theorem digitsAux_length_le : ∀ fuel n k, n ≤ fuel → n < 10 ^ k →
    (digitsAux fuel n).length ≤ k := by
  intro fuel
  induction fuel with
  | zero => intro n k h hk; interval_cases n; simp [digitsAux]
  | succ f ih =>
    intro n k h hk
    by_cases hn : n = 0
    · subst hn; simp [digitsAux]
    · have hkpos : 0 < k := by
        by_contra hk0
        have : k = 0 := by omega
        subst this
        simp at hk
        omega
      have hdiv : n / 10 ≤ f := by
        have h1 : n / 10 < n := Nat.div_lt_self (Nat.pos_of_ne_zero hn) (by omega)
        omega
      have hdivk : n / 10 < 10 ^ (k - 1) := by
        have : n < 10 ^ (k - 1) * 10 := by
          have : 10 ^ (k - 1) * 10 = 10 ^ k := by
            rw [← pow_succ]
            congr 1
            omega
          omega
        exact Nat.div_lt_of_lt_mul (by omega)
      simp only [digitsAux, if_neg hn, List.length_cons]
      have := ih (n / 10) (k - 1) hdiv hdivk
      omega

theorem digitChar_toNat {d : ℕ} (h : d < 10) : (digitChar d).toNat - 48 = d := by
  interval_cases d <;> rfl

theorem digitChar_isDigit {d : ℕ} (h : d < 10) : (digitChar d).isDigit = true := by
  interval_cases d <;> rfl

theorem foldl_digits_reverse :
    ∀ (ds : List ℕ), (∀ d ∈ ds, d < 10) → ∀ a : ℕ,
      List.foldl (fun a c => 10 * a + (c.toNat - 48)) a ((ds.map digitChar).reverse)
        = a * 10 ^ ds.length + valRev ds := by
  intro ds
  induction ds with
  | nil => intro _ a; simp [valRev]
  | cons d ds ih =>
    intro hds a
    have hd : d < 10 := hds d (List.mem_cons_self _ _)
    have hds' : ∀ x ∈ ds, x < 10 := fun x hx => hds x (List.mem_cons_of_mem _ hx)
    simp only [List.map_cons, List.reverse_cons, List.foldl_append, List.foldl_cons,
      List.foldl_nil, ih hds', valRev, List.length_cons]
    rw [digitChar_toNat hd]
    ring

theorem digitsVal_natRepr (n : ℕ) : digitsVal (natRepr n) = n := by
  by_cases hn : n = 0
  · subst hn; rfl
  · unfold natRepr digitsVal
    rw [if_neg hn]
    rw [foldl_digits_reverse _ (fun d hd => digitsAux_lt_ten n n d hd) 0]
    simp [valRev_digitsAux n n le_rfl]

theorem natRepr_ne_nil (n : ℕ) : natRepr n ≠ [] := by
  by_cases hn : n = 0
  · subst hn; simp [natRepr]
  · unfold natRepr
    rw [if_neg hn]
    intro hcon
    have : digitsAux n n = [] := by
      have hlen := congrArg List.length hcon
      simp at hlen
      exact hlen
    have hv := valRev_digitsAux n n le_rfl
    rw [this] at hv
    exact hn (by simpa [valRev] using hv.symm)

theorem natRepr_isDigit (n : ℕ) : ∀ c ∈ natRepr n, c.isDigit = true := by
  intro c hc
  by_cases hn : n = 0
  · subst hn; simp [natRepr] at hc; subst hc; rfl
  · unfold natRepr at hc
    rw [if_neg hn] at hc
    rw [List.mem_reverse, List.mem_map] at hc
    obtain ⟨d, hd, rfl⟩ := hc
    exact digitChar_isDigit (digitsAux_lt_ten n n d hd)

theorem natRepr_length_le {n k : ℕ} (hk : 0 < k) (h : n < 10 ^ k) :
    (natRepr n).length ≤ k := by
  by_cases hn : n = 0
  · subst hn; simpa [natRepr] using hk
  · unfold natRepr
    rw [if_neg hn]
    simpa using digitsAux_length_le n n k le_rfl h

/-- Model of `String.prototype.padStart(width, '0')`. -/
def padLeft (width : ℕ) (l : List Char) : List Char :=
  List.replicate (width - l.length) '0' ++ l

theorem padLeft_isDigit {l : List Char} (h : ∀ c ∈ l, c.isDigit = true) (w : ℕ) :
    ∀ c ∈ padLeft w l, c.isDigit = true := by
  intro c hc
  rw [padLeft, List.mem_append] at hc
  rcases hc with hc | hc
  · rw [List.eq_of_mem_replicate hc]; rfl
  · exact h c hc

theorem digitsVal_replicate_zero_append (k : ℕ) (l : List Char) :
    digitsVal (List.replicate k '0' ++ l) = digitsVal l := by
  unfold digitsVal
  rw [List.foldl_append]
  congr 1
  induction k with
  | zero => rfl
  | succ k ih => simpa [List.replicate_succ] using ih

theorem digitsVal_padLeft (w : ℕ) (l : List Char) :
    digitsVal (padLeft w l) = digitsVal l :=
  digitsVal_replicate_zero_append _ _

theorem padLeft_length_of_le {w : ℕ} {l : List Char} (h : l.length ≤ w) :
    (padLeft w l).length = w := by
  simp [padLeft]
  omega

/-! ### String helpers used by `parseTime` -/

/-- Whitespace test backing `String.prototype.trim` (the timestamp strings
this application produces contain none of the exotic Unicode spaces). -/
def isWsChar (c : Char) : Bool :=
  c = ' ' || c = '\t' || c = '\n' || c = '\r'

/-- Model of `String.prototype.trim`. -/
def trimChars (l : List Char) : List Char :=
  ((l.dropWhile isWsChar).reverse.dropWhile isWsChar).reverse

/-- Model of `String.prototype.replace(',', '.')` — JS `replace` with a string
pattern replaces only the first occurrence. -/
def replaceFirstComma : List Char → List Char
  | [] => []
  | c :: rest => if c = ',' then '.' :: rest else c :: replaceFirstComma rest

/-- Model of `String.prototype.split(sep)` for a single-character separator. -/
def splitOnChar (sep : Char) : List Char → List (List Char)
  | [] => [[]]
  | c :: rest =>
    if c = sep then [] :: splitOnChar sep rest
    else
      match splitOnChar sep rest with
      | [] => [[c]]
      | p :: ps => (c :: p) :: ps

/-- Model of `parseFloat` (JS builtin), restricted to the decimal fragment the
application feeds it: an optional sign, then digits with an optional
decimal fraction, value taken from the longest such prefix; `none`
models `NaN`.  (Exponents and `Infinity` are not modelled: no timestamp
string contains them.) -/
def parseFloatQ (s : List Char) : Option ℚ :=
  let (sgn, rest) : ℚ × List Char :=
    if s.head? = some '-' then (-1, s.tail)
    else if s.head? = some '+' then (1, s.tail)
    else (1, s)
  let intDs := rest.takeWhile (fun c => c.isDigit)
  let rest2 := rest.dropWhile (fun c => c.isDigit)
  let fracDs := if rest2.head? = some '.' then rest2.tail.takeWhile (fun c => c.isDigit) else []
  if intDs = [] ∧ fracDs = [] then none
  else some (sgn * ((digitsVal intDs : ℚ) + (digitsVal fracDs : ℚ) / 10 ^ fracDs.length))

/-! ### TimeCodec (`src/utils.ts`) -/

/-- Model of `parseTime` from `src/utils.ts`, on the string input case (the
`undefined`/`number` overloads short-circuit before any string logic and
are not needed by the claims).  Malformed input yields `0`. -/
def parseTime (timeStr : List Char) : ℚ :=
  let normalized := trimChars (replaceFirstComma timeStr)
  if normalized = [] then 0
  else if ¬ (':' ∈ normalized) then
    match parseFloatQ normalized with
    | none => 0
    | some v => v
  else
    let parts := splitOnChar ':' normalized
    let vals := parts.map parseFloatQ
    if vals.any Option.isNone then 0
    else
      match vals with
      | [a, b, c] => a.getD 0 * 3600 + b.getD 0 * 60 + c.getD 0
      | [a, b] => a.getD 0 * 60 + b.getD 0
      | [a] => a.getD 0
      | _ => 0

/-- JS `%` (fmod) for the non-negative dividend / positive divisor cases
`formatTime` uses. -/
def qmod (a b : ℚ) : ℚ := a - b * ⌊a / b⌋

/-- Model of `Number.prototype.toFixed(3)` for the non-negative values reached in
`formatTime`: round to the nearest thousandth, half up, print with
exactly three fraction digits. -/
def toFixed3 (x : ℚ) : List Char :=
  let n := (⌊x * 1000 + 1 / 2⌋).toNat
  natRepr (n / 1000) ++ '.' :: padLeft 3 (natRepr (n % 1000))

/-- Model of `formatTime` from `src/utils.ts`.  The `!isFinite(seconds)` test of
the source has no counterpart on `ℚ`; the `seconds < 0` branch is
modelled as written. -/
def formatTime (seconds : ℚ) : List Char :=
  if seconds < 0 then ("00:00:00.000".toList)
  else
    let h := (⌊seconds / 3600⌋).toNat
    let m := (⌊qmod seconds 3600 / 60⌋).toNat
    let s := qmod seconds 60
    let sFormatted := padLeft 6 (toFixed3 s)
    padLeft 2 (natRepr h) ++ ':' :: padLeft 2 (natRepr m) ++ ':' :: sFormatted

/-! ### Lemmas: the parsing pipeline on well-formed timestamp strings -/

theorem replaceFirstComma_of_not_mem : ∀ {l : List Char}, ',' ∉ l →
    replaceFirstComma l = l := by
  intro l
  induction l with
  | nil => intro _; rfl
  | cons c rest ih =>
    intro h
    have hc : ¬ c = ',' := fun hcc => h (hcc ▸ List.mem_cons_self _ _)
    simp only [replaceFirstComma, if_neg hc]
    rw [ih (fun hm => h (List.mem_cons_of_mem _ hm))]

theorem dropWhile_eq_self_of_forall {p : Char → Bool} : ∀ {l : List Char},
    (∀ c ∈ l, p c = false) → l.dropWhile p = l := by
  intro l h
  cases l with
  | nil => rfl
  | cons c rest =>
    rw [List.dropWhile_cons_of_neg]
    simp [h c (List.mem_cons_self _ _)]

theorem trimChars_of_no_ws {l : List Char} (h : ∀ c ∈ l, isWsChar c = false) :
    trimChars l = l := by
  unfold trimChars
  rw [dropWhile_eq_self_of_forall h,
    dropWhile_eq_self_of_forall (fun c hc => h c (List.mem_reverse.mp hc)),
    List.reverse_reverse]

theorem splitOnChar_of_not_mem {sep : Char} : ∀ {l : List Char}, sep ∉ l →
    splitOnChar sep l = [l] := by
  intro l
  induction l with
  | nil => intro _; rfl
  | cons c rest ih =>
    intro h
    have hc : ¬ c = sep := fun hcc => h (hcc ▸ List.mem_cons_self _ _)
    simp only [splitOnChar, if_neg hc]
    rw [ih (fun hm => h (List.mem_cons_of_mem _ hm))]

theorem splitOnChar_append {sep : Char} : ∀ {A : List Char} (B : List Char), sep ∉ A →
    splitOnChar sep (A ++ sep :: B) = A :: splitOnChar sep B := by
  intro A
  induction A with
  | nil =>
    intro B _
    simp [splitOnChar]
  | cons c rest ih =>
    intro B h
    have hc : ¬ c = sep := fun hcc => h (hcc ▸ List.mem_cons_self _ _)
    simp only [List.cons_append, splitOnChar, if_neg hc, List.append_eq]
    rw [ih B (fun hm => h (List.mem_cons_of_mem _ hm))]

theorem isDigit_ne_char {c : Char} (h : c.isDigit = true) {d : Char}
    (hd : d.toNat < 48 ∨ 57 < d.toNat) : c ≠ d := by
  intro hcd
  subst hcd
  rw [Char.isDigit] at h
  simp only [Bool.and_eq_true, decide_eq_true_eq] at h
  obtain ⟨h1, h2⟩ := h
  rcases hd with hd | hd
  · exact absurd h1 (by simpa [Char.le_def] using hd)
  · exact absurd h2 (by simpa [Char.le_def] using hd)

theorem takeWhile_all {p : Char → Bool} : ∀ {l : List Char},
    (∀ c ∈ l, p c = true) → l.takeWhile p = l := by
  intro l h
  induction l with
  | nil => rfl
  | cons c rest ih =>
    rw [List.takeWhile_cons_of_pos (h c (List.mem_cons_self _ _))]
    rw [ih (fun x hx => h x (List.mem_cons_of_mem _ hx))]

theorem dropWhile_all {p : Char → Bool} : ∀ {l : List Char},
    (∀ c ∈ l, p c = true) → l.dropWhile p = [] := by
  intro l h
  induction l with
  | nil => rfl
  | cons c rest ih =>
    rw [List.dropWhile_cons_of_pos (h c (List.mem_cons_self _ _))]
    exact ih (fun x hx => h x (List.mem_cons_of_mem _ hx))

theorem parseFloatQ_digits {ds : List Char} (hne : ds ≠ [])
    (hd : ∀ c ∈ ds, c.isDigit = true) :
    parseFloatQ ds = some ((digitsVal ds : ℕ) : ℚ) := by
  obtain ⟨c, rest, rfl⟩ := List.exists_cons_of_ne_nil hne
  have hc : c.isDigit = true := hd c (List.mem_cons_self _ _)
  have hcm : c ≠ '-' := isDigit_ne_char hc (by left; decide)
  have hcp : c ≠ '+' := isDigit_ne_char hc (by left; decide)
  unfold parseFloatQ
  simp only [List.head?_cons, Option.some.injEq, if_neg hcm, if_neg hcp]
  rw [takeWhile_all hd, dropWhile_all hd]
  simp only [List.head?_nil, reduceCtorEq, if_neg (by simp : ¬ (none : Option Char) = some '.')]
  rw [if_neg (by simp [hne])]
  simp [digitsVal]

theorem parseFloatQ_digits_frac {ds fs : List Char} (hne : ds ≠ [])
    (hd : ∀ c ∈ ds, c.isDigit = true) (hf : ∀ c ∈ fs, c.isDigit = true) :
    parseFloatQ (ds ++ '.' :: fs) =
      some ((digitsVal ds : ℚ) + (digitsVal fs : ℚ) / 10 ^ fs.length) := by
  obtain ⟨c, rest, rfl⟩ := List.exists_cons_of_ne_nil hne
  have hc : c.isDigit = true := hd c (List.mem_cons_self _ _)
  have hcm : c ≠ '-' := isDigit_ne_char hc (by left; decide)
  have hcp : c ≠ '+' := isDigit_ne_char hc (by left; decide)
  have hd' : ∀ x ∈ rest, x.isDigit = true := fun x hx => hd x (List.mem_cons_of_mem _ hx)
  unfold parseFloatQ
  simp only [List.cons_append, List.head?_cons, Option.some.injEq, if_neg hcm, if_neg hcp]
  rw [List.takeWhile_cons_of_pos hc, List.dropWhile_cons_of_pos hc,
    List.takeWhile_append_of_pos hd', List.dropWhile_append_of_pos hd',
    List.takeWhile_cons_of_neg (by decide), List.dropWhile_cons_of_neg (by decide)]
  simp only [List.append_nil, List.head?_cons, List.tail_cons, if_pos rfl]
  rw [takeWhile_all hf]
  rw [if_neg (by simp)]
  simp

/-! ### The shape of `formatTime` output and the round-trip theorem -/

theorem padLeft_ne_nil {l : List Char} (h : l ≠ []) (w : ℕ) : padLeft w l ≠ [] := by
  unfold padLeft
  simp [h]

theorem formatTime_nonneg_eq (q : ℚ) (hq : 0 ≤ q) :
    formatTime q =
      padLeft 2 (natRepr (⌊q / 3600⌋).toNat) ++ ':' ::
        (padLeft 2 (natRepr (⌊qmod q 3600 / 60⌋).toNat) ++ ':' ::
          padLeft 6 (toFixed3 (qmod q 60))) := by
  unfold formatTime
  rw [if_neg (not_lt.mpr hq)]
  dsimp only
  rw [List.append_assoc]
  rfl

theorem toFixed3_chars (s : ℚ) : ∀ c ∈ toFixed3 s, c.isDigit = true ∨ c = '.' := by
  intro c hc
  unfold toFixed3 at hc
  rw [List.mem_append, List.mem_cons] at hc
  rcases hc with hc | hc | hc
  · exact Or.inl (natRepr_isDigit _ c hc)
  · exact Or.inr hc
  · exact Or.inl (padLeft_isDigit (natRepr_isDigit _) 3 c hc)

theorem padLeft_toFixed3_chars (s : ℚ) (w : ℕ) :
    ∀ c ∈ padLeft w (toFixed3 s), c.isDigit = true ∨ c = '.' := by
  intro c hc
  rw [padLeft, List.mem_append] at hc
  rcases hc with hc | hc
  · rw [List.eq_of_mem_replicate hc]; exact Or.inl rfl
  · exact toFixed3_chars s c hc

theorem timeChar_ne_colon {c : Char} (h : c.isDigit = true ∨ c = '.') : c ≠ ':' := by
  rcases h with h | h
  · exact isDigit_ne_char h (by right; decide)
  · subst h; decide

theorem timeChar_ne_comma {c : Char} (h : c.isDigit = true ∨ c = '.' ∨ c = ':') :
    c ≠ ',' := by
  rcases h with h | h | h
  · exact isDigit_ne_char h (by left; decide)
  · subst h; decide
  · subst h; decide

theorem timeChar_not_ws {c : Char} (h : c.isDigit = true ∨ c = '.' ∨ c = ':') :
    isWsChar c = false := by
  rcases h with h | h | h
  · have h1 : c ≠ ' ' := isDigit_ne_char h (by left; decide)
    have h2 : c ≠ '\t' := isDigit_ne_char h (by left; decide)
    have h3 : c ≠ '\n' := isDigit_ne_char h (by left; decide)
    have h4 : c ≠ '\r' := isDigit_ne_char h (by left; decide)
    simp [isWsChar, h1, h2, h3, h4]
  · subst h; rfl
  · subst h; rfl

theorem parseFloatQ_padLeft_toFixed3 (s : ℚ) :
    parseFloatQ (padLeft 6 (toFixed3 s)) =
      some ((((⌊s * 1000 + 1 / 2⌋).toNat : ℕ) : ℚ) / 1000) := by
  unfold toFixed3 padLeft
  set n : ℕ := (⌊s * 1000 + 1 / 2⌋).toNat with hn
  set A : List Char := natRepr (n / 1000) with hA
  set F : List Char := List.replicate (3 - (natRepr (n % 1000)).length) '0' ++
    natRepr (n % 1000) with hF
  have hFpad : F = padLeft 3 (natRepr (n % 1000)) := rfl
  have hFlen : F.length = 3 := by
    rw [hFpad]
    exact padLeft_length_of_le (natRepr_length_le (by omega)
      (by simpa using Nat.mod_lt n (show 0 < 1000 by omega)))
  have hFd : ∀ c ∈ F, c.isDigit = true := by
    rw [hFpad]; exact padLeft_isDigit (natRepr_isDigit _) 3
  have hAd : ∀ c ∈ A, c.isDigit = true := natRepr_isDigit _
  have hshape : List.replicate (6 - (A ++ '.' :: F).length) '0' ++ (A ++ '.' :: F) =
      (List.replicate (6 - (A ++ '.' :: F).length) '0' ++ A) ++ '.' :: F := by
    rw [List.append_assoc]
  rw [hshape]
  rw [parseFloatQ_digits_frac
    (fun hc => (hA ▸ natRepr_ne_nil (n / 1000)) (List.append_eq_nil.mp hc).2)
    (by
      intro c hc
      rw [List.mem_append] at hc
      rcases hc with hc | hc
      · rw [List.eq_of_mem_replicate hc]; rfl
      · exact hAd c hc)
    hFd]
  rw [digitsVal_replicate_zero_append, digitsVal_natRepr, hFlen, hFpad, digitsVal_padLeft,
    digitsVal_natRepr]
  congr 1
  have hsum : (1000 : ℚ) * ((n / 1000 : ℕ) : ℚ) + ((n % 1000 : ℕ) : ℚ) = (n : ℚ) := by
    exact_mod_cast congrArg (Nat.cast : ℕ → ℚ) (Nat.div_add_mod n 1000)
  have h1000 : (10 : ℚ) ^ 3 = 1000 := by norm_num
  rw [h1000]
  field_simp
  linarith

/-- Round-trip through the codec: for any non-negative `q`, parsing the
formatted string recovers `q` rounded (half up) to the millisecond. -/
theorem parseTime_formatTime (q : ℚ) (hq : 0 ≤ q) :
    parseTime (formatTime q) = ((⌊q * 1000 + 1 / 2⌋ : ℤ) : ℚ) / 1000 := by
  have hfmt := formatTime_nonneg_eq q hq
  set H : ℤ := ⌊q / 3600⌋ with hH
  set r : ℚ := qmod q 3600 with hrdef
  set M : ℤ := ⌊r / 60⌋ with hM
  set s : ℚ := qmod q 60 with hsdef
  have hH0 : 0 ≤ H := Int.floor_nonneg.mpr (by positivity)
  have hr0 : 0 ≤ r := by
    rw [hrdef]
    unfold qmod
    linarith [Int.floor_le (q / 3600)]
  have hM0 : 0 ≤ M := Int.floor_nonneg.mpr (by positivity)
  have hs0 : 0 ≤ s := by
    rw [hsdef]
    unfold qmod
    linarith [Int.floor_le (q / 60)]
  have h1d : ∀ c ∈ padLeft 2 (natRepr H.toNat), c.isDigit = true :=
    padLeft_isDigit (natRepr_isDigit _) 2
  have h2d : ∀ c ∈ padLeft 2 (natRepr M.toNat), c.isDigit = true :=
    padLeft_isDigit (natRepr_isDigit _) 2
  have h3c : ∀ c ∈ padLeft 6 (toFixed3 s), c.isDigit = true ∨ c = '.' :=
    padLeft_toFixed3_chars s 6
  have hall : ∀ c ∈ formatTime q, c.isDigit = true ∨ c = '.' ∨ c = ':' := by
    rw [hfmt]
    intro c hc
    rw [List.mem_append, List.mem_cons] at hc
    rcases hc with hc | hc | hc
    · exact Or.inl (h1d c hc)
    · exact Or.inr (Or.inr hc)
    · rw [List.mem_append, List.mem_cons] at hc
      rcases hc with hc | hc | hc
      · exact Or.inl (h2d c hc)
      · exact Or.inr (Or.inr hc)
      · rcases h3c c hc with hd | hd
        · exact Or.inl hd
        · exact Or.inr (Or.inl hd)
  have hcomma : ',' ∉ formatTime q := fun hc => timeChar_ne_comma (hall ',' hc) rfl
  have hws : ∀ c ∈ formatTime q, isWsChar c = false := fun c hc => timeChar_not_ws (hall c hc)
  have hcolonmem : ':' ∈ formatTime q := by
    rw [hfmt]
    simp
  have hne : formatTime q ≠ [] := List.ne_nil_of_mem hcolonmem
  have h1nc : ':' ∉ padLeft 2 (natRepr H.toNat) :=
    fun hc => timeChar_ne_colon (Or.inl (h1d _ hc)) rfl
  have h2nc : ':' ∉ padLeft 2 (natRepr M.toNat) :=
    fun hc => timeChar_ne_colon (Or.inl (h2d _ hc)) rfl
  have h3nc : ':' ∉ padLeft 6 (toFixed3 s) :=
    fun hc => timeChar_ne_colon (h3c _ hc) rfl
  unfold parseTime
  dsimp only
  rw [replaceFirstComma_of_not_mem hcomma, trimChars_of_no_ws hws]
  rw [if_neg hne, if_neg (not_not_intro hcolonmem)]
  rw [hfmt, splitOnChar_append _ h1nc, splitOnChar_append _ h2nc, splitOnChar_of_not_mem h3nc]
  rw [List.map_cons, List.map_cons, List.map_cons, List.map_nil]
  rw [parseFloatQ_digits (padLeft_ne_nil (natRepr_ne_nil _) 2) h1d,
    parseFloatQ_digits (padLeft_ne_nil (natRepr_ne_nil _) 2) h2d,
    parseFloatQ_padLeft_toFixed3 s]
  rw [if_neg (by simp)]
  simp only [Option.getD_some]
  rw [digitsVal_padLeft, digitsVal_natRepr, digitsVal_padLeft, digitsVal_natRepr]
  have hq60 : (⌊q / 60⌋ : ℤ) = 60 * H + M := by
    have hqdecomp : q = 3600 * (H : ℚ) + r := by
      rw [hrdef]
      unfold qmod
      rw [← hH]
      ring
    have hstep : q / 60 = ((60 * H : ℤ) : ℚ) + r / 60 := by
      rw [hqdecomp]
      push_cast
      ring
    rw [hstep, Int.floor_int_add, ← hM]
  have hsd : q = 60 * ((⌊q / 60⌋ : ℤ) : ℚ) + s := by
    rw [hsdef]
    unfold qmod
    ring
  have hbig : (⌊q * 1000 + 1 / 2⌋ : ℤ) = 60000 * ⌊q / 60⌋ + ⌊s * 1000 + 1 / 2⌋ := by
    have hstep : q * 1000 + 1 / 2 = ((60000 * ⌊q / 60⌋ : ℤ) : ℚ) + (s * 1000 + 1 / 2) := by
      push_cast
      linarith [hsd]
    rw [hstep, Int.floor_int_add]
  have hn0 : 0 ≤ ⌊s * 1000 + 1 / 2⌋ := Int.floor_nonneg.mpr (by positivity)
  have hHc : ((H.toNat : ℕ) : ℚ) = (H : ℚ) := by
    exact_mod_cast congrArg (Int.cast : ℤ → ℚ) (Int.toNat_of_nonneg hH0)
  have hMc : ((M.toNat : ℕ) : ℚ) = (M : ℚ) := by
    exact_mod_cast congrArg (Int.cast : ℤ → ℚ) (Int.toNat_of_nonneg hM0)
  have hnc : (((⌊s * 1000 + 1 / 2⌋).toNat : ℕ) : ℚ) = ((⌊s * 1000 + 1 / 2⌋ : ℤ) : ℚ) := by
    exact_mod_cast congrArg (Int.cast : ℤ → ℚ) (Int.toNat_of_nonneg hn0)
  rw [hHc, hMc, hnc, hbig, hq60]
  push_cast
  ring

/-- Round-trip at exact millisecond precision is the identity. -/
theorem parseTime_formatTime_ms (k : ℕ) :
    parseTime (formatTime ((k : ℚ) / 1000)) = (k : ℚ) / 1000 := by
  rw [parseTime_formatTime _ (by positivity)]
  have hfl : (⌊(k : ℚ) / 1000 * 1000 + 1 / 2⌋ : ℤ) = (k : ℤ) := by
    have hre : (k : ℚ) / 1000 * 1000 + 1 / 2 = ((k : ℤ) : ℚ) + 1 / 2 := by
      push_cast
      ring
    rw [hre, Int.floor_int_add]
    norm_num
  rw [hfl]
  norm_num

/-- Round-trip at whole seconds is the identity. -/
theorem parseTime_formatTime_nat (n : ℕ) :
    parseTime (formatTime (n : ℚ)) = (n : ℚ) := by
  have h := parseTime_formatTime_ms (1000 * n)
  have he : ((1000 * n : ℕ) : ℚ) / 1000 = (n : ℚ) := by
    push_cast
    ring
  rw [he] at h
  exact h

/-- Committing two times through `formatTime` and reading them back
preserves any separation that is a whole number of milliseconds. -/
theorem parseTime_formatTime_sep {a b : ℚ} (ha : 0 ≤ a) (k : ℕ)
    (h : a + (k : ℚ) / 1000 ≤ b) :
    parseTime (formatTime a) + (k : ℚ) / 1000 ≤ parseTime (formatTime b) := by
  have hb : 0 ≤ b := by
    have : (0 : ℚ) ≤ (k : ℚ) / 1000 := by positivity
    linarith
  rw [parseTime_formatTime a ha, parseTime_formatTime b hb]
  have hkey : (⌊a * 1000 + 1 / 2⌋ : ℤ) + (k : ℤ) ≤ ⌊b * 1000 + 1 / 2⌋ := by
    have h1 : (⌊a * 1000 + 1 / 2⌋ : ℤ) + (k : ℤ) = ⌊a * 1000 + 1 / 2 + (k : ℤ)⌋ :=
      (Int.floor_add_int _ _).symm
    rw [h1]
    apply Int.floor_le_floor
    push_cast
    linarith
  have : ((⌊a * 1000 + 1 / 2⌋ : ℤ) : ℚ) + (k : ℚ) ≤ ((⌊b * 1000 + 1 / 2⌋ : ℤ) : ℚ) := by
    exact_mod_cast hkey
  linarith

/-! ### Data model (`src/types.ts`) -/

/-- Model of `AnimationType` from `src/types.ts`. -/
inductive AnimationType where
  | NONE
  | FADE_IN
  | SLIDE_UP
  | SCALE_UP
  | KARAOKE_HIGHLIGHT
deriving DecidableEq

/-- Model of `StyleConfig` from `src/types.ts`. -/
structure StyleConfig where
  fontFamily : List Char
  fontSize : ℚ
  textColor : List Char
  borderColor : List Char
  borderWidth : ℚ
  backgroundColor : List Char
  backgroundOpacity : ℚ
  animationType : AnimationType
  positionY : ℚ
  positionX : ℚ
  fontWeight : List Char
deriving DecidableEq

/-- Model of `Partial<StyleConfig>` — a caption's optional per-field override
(`Caption.style`).  A field is `none` exactly when the key is absent
from the object. -/
structure StyleOverride where
  fontFamily : Option (List Char) := none
  fontSize : Option ℚ := none
  textColor : Option (List Char) := none
  borderColor : Option (List Char) := none
  borderWidth : Option ℚ := none
  backgroundColor : Option (List Char) := none
  backgroundOpacity : Option ℚ := none
  animationType : Option AnimationType := none
  positionY : Option ℚ := none
  positionX : Option ℚ := none
  fontWeight : Option (List Char) := none
deriving DecidableEq

/-- Model of `Caption` from `src/types.ts`.  The TypeScript field `end` is a
reserved word in Lean and is rendered `endTime`. -/
structure Caption where
  id : List Char
  start : List Char
  endTime : List Char
  text : List Char
  style : Option StyleOverride := none
deriving DecidableEq

/-! ### StyleResolver (`getEffectiveStyle` in `src/utils.ts`) -/

/-- Model of `getEffectiveStyle` from `src/utils.ts`: `{...globalStyle, ...caption.style}`
— the spread of a `Partial` object overrides exactly the fields the
override carries. -/
def getEffectiveStyle (globalStyle : StyleConfig) (caption : Option Caption) : StyleConfig :=
  match caption with
  | none => globalStyle
  | some c =>
    match c.style with
    | none => globalStyle
    | some s =>
      { fontFamily := s.fontFamily.getD globalStyle.fontFamily
        fontSize := s.fontSize.getD globalStyle.fontSize
        textColor := s.textColor.getD globalStyle.textColor
        borderColor := s.borderColor.getD globalStyle.borderColor
        borderWidth := s.borderWidth.getD globalStyle.borderWidth
        backgroundColor := s.backgroundColor.getD globalStyle.backgroundColor
        backgroundOpacity := s.backgroundOpacity.getD globalStyle.backgroundOpacity
        animationType := s.animationType.getD globalStyle.animationType
        positionY := s.positionY.getD globalStyle.positionY
        positionX := s.positionX.getD globalStyle.positionX
        fontWeight := s.fontWeight.getD globalStyle.fontWeight }

/-! ### Caption lookup (`findCaptionAtTime` in `src/components/VideoPlayer.tsx`)

The same first-match scan (closed interval, existing list order) also
derives `activeCaption` in `src/App.tsx` and `activeCaptionId` in
`src/components/CaptionList.tsx`. -/

/-- A caption is active at `time` when `time >= parseTime(start) &&
time <= parseTime(end)`. -/
def activeAt (c : Caption) (time : ℚ) : Prop :=
  parseTime c.start ≤ time ∧ time ≤ parseTime c.endTime

instance (c : Caption) (time : ℚ) : Decidable (activeAt c time) := by
  unfold activeAt
  infer_instance

/-- Model of `findCaptionAtTime` from `src/components/VideoPlayer.tsx`:
`captions.find(...)` on the live time. -/
def findCaptionAtTime (captions : List Caption) (time : ℚ) : Option Caption :=
  captions.find? fun c =>
    decide (parseTime c.start ≤ time) && decide (time ≤ parseTime c.endTime)

theorem findCaptionAtTime_first : ∀ (before : List Caption) (c : Caption)
    (after : List Caption) (t : ℚ), (∀ c' ∈ before, ¬ activeAt c' t) → activeAt c t →
    findCaptionAtTime (before ++ c :: after) t = some c := by
  intro before
  induction before with
  | nil =>
    intro c after t _ hc
    unfold findCaptionAtTime
    rw [List.nil_append, List.find?_cons_of_pos]
    simp only [Bool.and_eq_true, decide_eq_true_eq]
    exact ⟨hc.1, hc.2⟩
  | cons b rest ih =>
    intro c after t hpre hc
    unfold findCaptionAtTime
    rw [List.cons_append, List.find?_cons_of_neg]
    · exact ih c after t (fun c' h' => hpre c' (List.mem_cons_of_mem _ h')) hc
    · have hb : ¬ activeAt b t := hpre b (List.mem_cons_self _ _)
      simp only [Bool.and_eq_true, decide_eq_true_eq]
      exact fun hcon => hb ⟨hcon.1, hcon.2⟩

/-! ### Caption lifecycle (`src/App.tsx`) -/

/-- The caption ids of a list. -/
def ids (captions : List Caption) : List (List Char) :=
  captions.map Caption.id

/-- The `.sort((a,b) => parseTime(a.start) - parseTime(b.start))` applied
after add and split, modelled as a sort by ascending parsed start time. -/
def sortByStart (captions : List Caption) : List Caption :=
  captions.insertionSort fun a b => parseTime a.start ≤ parseTime b.start

theorem ids_sortByStart_perm (captions : List Caption) :
    List.Perm (ids (sortByStart captions)) (ids captions) :=
  (List.perm_insertionSort _ captions).map Caption.id

/-- The caption built by `handleAddCaption` in `src/App.tsx`; `now` is
the value of `Date.now()` rendered as a string. -/
def handleAddCaption (currentTime duration : ℚ) (now : List Char) : Caption :=
  { id := "manual-".toList ++ now
    start := formatTime currentTime
    endTime := formatTime (min duration (currentTime + 2))
    text := "New Caption".toList
    style := none }

/-- The `setCaptions` update performed by `handleAddCaption`. -/
def addCaption (captions : List Caption) (currentTime duration : ℚ)
    (now : List Char) : List Caption :=
  sortByStart (captions ++ [handleAddCaption currentTime duration now])

/-- Model of `handleSplitCaption` from `src/App.tsx`. -/
def handleSplitCaption (captions : List Caption) (id : List Char) : List Caption :=
  match captions.find? (fun c => decide (c.id = id)) with
  | none => captions
  | some captionToSplit =>
    let start := parseTime captionToSplit.start
    let stop := parseTime captionToSplit.endTime
    let mid := start + (stop - start) / 2
    let part1 : Caption := { captionToSplit with endTime := formatTime mid }
    let part2 : Caption :=
      { captionToSplit with
        id := captionToSplit.id ++ "-split".toList
        start := formatTime mid
        text := captionToSplit.text ++ " (Part 2)".toList }
    sortByStart ((captions.map fun c => if c.id = id then part1 else c) ++ [part2])

/-- Model of `Partial<Caption>` as passed to `handleCaptionChange`; the callers
never update `id`.  `style` carries `some none` when the override is
reset to `undefined`. -/
structure CaptionUpdate where
  start : Option (List Char) := none
  endTime : Option (List Char) := none
  text : Option (List Char) := none
  style : Option (Option StyleOverride) := none
deriving DecidableEq

/-- The spread `{ ...c, ...updates }`. -/
def applyUpdate (c : Caption) (u : CaptionUpdate) : Caption :=
  { id := c.id
    start := u.start.getD c.start
    endTime := u.endTime.getD c.endTime
    text := u.text.getD c.text
    style := u.style.getD c.style }

/-- Model of `handleCaptionChange` from `src/App.tsx`. -/
def handleCaptionChange (captions : List Caption) (id : List Char)
    (updates : CaptionUpdate) : List Caption :=
  captions.map fun c => if c.id = id then applyUpdate c updates else c

/-- Model of `onCaptionDelete` from `src/App.tsx`:
`setCaptions(prev => prev.filter(c => c.id !== id))`. -/
def handleCaptionDelete (captions : List Caption) (id : List Char) : List Caption :=
  captions.filter fun c => decide (¬ c.id = id)

theorem ids_map_replace (captions : List Caption) (id : List Char) (part1 : Caption)
    (h1 : part1.id = id) :
    ids (captions.map fun c => if c.id = id then part1 else c) = ids captions := by
  unfold ids
  rw [List.map_map]
  apply List.map_congr_left
  intro c _
  by_cases hc : c.id = id
  · simp [hc, h1]
  · simp [hc]

theorem handleSplitCaption_ids_perm {captions : List Caption} {id : List Char}
    {c : Caption} (hfind : captions.find? (fun c => decide (c.id = id)) = some c) :
    List.Perm (ids (handleSplitCaption captions id))
      (ids captions ++ [id ++ "-split".toList]) := by
  have hcid : c.id = id := by
    have := List.find?_some hfind
    simpa using this
  unfold handleSplitCaption
  rw [hfind]
  dsimp only
  refine (ids_sortByStart_perm _).trans ?_
  have hids : ids ((captions.map fun x => if x.id = id then
      { c with endTime := formatTime (parseTime c.start +
        (parseTime c.endTime - parseTime c.start) / 2) } else x) ++
      [{ c with
          id := c.id ++ "-split".toList
          start := formatTime (parseTime c.start +
            (parseTime c.endTime - parseTime c.start) / 2)
          text := c.text ++ " (Part 2)".toList }]) =
      ids captions ++ [id ++ "-split".toList] := by
    unfold ids
    rw [List.map_append]
    have h1 : ids (captions.map fun x => if x.id = id then
        { c with endTime := formatTime (parseTime c.start +
          (parseTime c.endTime - parseTime c.start) / 2) } else x) = ids captions :=
      ids_map_replace captions id _ (by simpa using hcid)
    unfold ids at h1
    rw [List.map_map] at h1 ⊢
    rw [h1]
    simp [hcid]
  rw [hids]

theorem addCaption_ids_perm (captions : List Caption) (t d : ℚ) (now : List Char) :
    List.Perm (ids (addCaption captions t d now))
      (ids captions ++ ["manual-".toList ++ now]) := by
  unfold addCaption
  refine (ids_sortByStart_perm _).trans ?_
  unfold ids
  rw [List.map_append]
  rfl

theorem handleCaptionChange_ids (captions : List Caption) (id : List Char)
    (u : CaptionUpdate) : ids (handleCaptionChange captions id u) = ids captions := by
  unfold handleCaptionChange ids
  rw [List.map_map]
  apply List.map_congr_left
  intro c _
  by_cases hc : c.id = id
  · simp [hc, applyUpdate]
  · simp [hc]

theorem handleCaptionDelete_ids_sublist (captions : List Caption) (id : List Char) :
    (ids (handleCaptionDelete captions id)).Sublist (ids captions) := by
  unfold handleCaptionDelete ids
  exact (List.filter_sublist captions).map Caption.id

/-! ### TimelineController (`src/components/Timeline.tsx`) -/

/-- The `type` field of the timeline drag state. -/
inductive DragType where
  | move
  | resizeLeft
  | resizeRight
  | playhead
deriving DecidableEq

/-- The `dragging` state of `src/components/Timeline.tsx` (`id`,
`initialStart`, `initialEnd` are optional exactly as in the source). -/
structure Dragging where
  id : Option (List Char) := none
  type : DragType
  startX : ℚ
  initialStart : Option ℚ := none
  initialEnd : Option ℚ := none
deriving DecidableEq

/-- Model of `pixelsToTime` from `src/components/Timeline.tsx`: `px / zoom`. -/
def pixelsToTime (zoom px : ℚ) : ℚ := px / zoom

/-- The caption-dragging part of `handleMouseMove` in
`src/components/Timeline.tsx`.  Returns the `(start, end)` strings
committed through `onCaptionChange`, or `none` when the handler returns
without committing (playhead drag, or the missing-field guard).
`0.1` and `0.2` are the literals of the source, written `1/10`, `1/5`. -/
def handleMouseMove (dragging : Dragging) (clientX : ℚ) (zoom : ℚ) :
    Option (List Char × List Char) :=
  match dragging.type with
  | .playhead => none
  | _ =>
    match dragging.id, dragging.initialStart, dragging.initialEnd with
    | some _, some initialStart, some initialEnd =>
      let deltaPixels := clientX - dragging.startX
      let deltaTime := pixelsToTime zoom deltaPixels
      let p : ℚ × ℚ :=
        match dragging.type with
        | .move =>
          let newStart := max 0 (initialStart + deltaTime)
          (newStart, max (newStart + 1 / 10) (initialEnd + deltaTime))
        | .resizeLeft =>
          (max 0 (min (initialEnd - 1 / 5) (initialStart + deltaTime)), initialEnd)
        | .resizeRight =>
          (initialStart, max (initialStart + 1 / 5) (initialEnd + deltaTime))
        | .playhead => (initialStart, initialEnd)
      some (formatTime p.1, formatTime p.2)
    | _, _, _ => none

theorem handleMouseMove_move_eq (id0 : List Char) (s0 e0 startX clientX zoom : ℚ) :
    handleMouseMove ⟨some id0, DragType.move, startX, some s0, some e0⟩ clientX zoom =
      some (formatTime (max 0 (s0 + (clientX - startX) / zoom)),
        formatTime (max (max 0 (s0 + (clientX - startX) / zoom) + 1 / 10)
          (e0 + (clientX - startX) / zoom))) := rfl

theorem handleMouseMove_resizeLeft_eq (id0 : List Char) (s0 e0 startX clientX zoom : ℚ) :
    handleMouseMove ⟨some id0, DragType.resizeLeft, startX, some s0, some e0⟩ clientX zoom =
      some (formatTime (max 0 (min (e0 - 1 / 5) (s0 + (clientX - startX) / zoom))),
        formatTime e0) := rfl

theorem handleMouseMove_resizeRight_eq (id0 : List Char) (s0 e0 startX clientX zoom : ℚ) :
    handleMouseMove ⟨some id0, DragType.resizeRight, startX, some s0, some e0⟩ clientX zoom =
      some (formatTime s0,
        formatTime (max (s0 + 1 / 5) (e0 + (clientX - startX) / zoom))) := rfl

/-! ### ExportSequencer (`handleExport` in `src/App.tsx`)

`handleExport` is an `async` function over browser APIs; its behaviour
is modelled as the deterministic sequence of state transitions it
performs on one run.  The scheduling facts baked into the model (and
visible in the source): `mediaRecorder.onstop` is an event-queue
callback, so it runs *after* the `finally` block of the same run;
`mediaRecorder.stop()` is called on the success path and on the catch
path alike; a rejected `video.play()` skips the `video.onended`
registration.  The only sources of nondeterminism — whether
`video.play()` resolves, and which data chunks the recorder emits — are
explicit parameters. -/

/-- Model of `ProcessingState.status` from `src/types.ts`. -/
inductive ProcStatus where
  | idle
  | uploading
  | transcribing
  | success
  | error
deriving DecidableEq

/-- Observable steps of an export run, in execution order. -/
inductive ExpEvent where
  | recorderStarted
  | seekIssued
  | seekAcked
  | playStarted
  | playFailed
  | recorderStopped
  | stopFlushed
deriving DecidableEq

/-- The decode engine (video element) state the export touches. -/
structure VideoSt where
  currentTime : ℚ
  muted : Bool
  playbackRate : ℚ
  onendedAttached : Bool
deriving DecidableEq

/-- Application state threaded through one export run. -/
structure ExportSt where
  video : VideoSt
  recording : Bool
  chunks : List ℕ
  downloads : List (List ℕ)
  status : ProcStatus
  statusHistory : List ProcStatus
  trace : List ExpEvent
deriving DecidableEq

/-- Model of `setProcessing`: records the new status (history kept for the
temporal claims). -/
def setStatus (p : ProcStatus) (s : ExportSt) : ExportSt :=
  { s with status := p, statusHistory := s.statusHistory ++ [p] }

def emit (e : ExpEvent) (s : ExportSt) : ExportSt :=
  { s with trace := s.trace ++ [e] }

/-- Model of `mediaRecorder.start()`. -/
def recorderStart (s : ExportSt) : ExportSt :=
  emit ExpEvent.recorderStarted { s with recording := true }

/-- Model of `mediaRecorder.stop()` (the synchronous call; the `onstop` callback
is dispatched later). -/
def recorderStop (s : ExportSt) : ExportSt :=
  emit ExpEvent.recorderStopped { s with recording := false }

/-- Model of `ondataavailable`: `if (e.data.size > 0) chunks.push(e.data)` for
each data event the recorder emits between start and stop. -/
def onDataAvailable (sizes : List ℕ) (s : ExportSt) : ExportSt :=
  { s with chunks := s.chunks ++ sizes.filter fun z => 0 < z }

/-- Model of `mediaRecorder.onstop`: assemble the blob from all accumulated
chunks, trigger the download, set status `success`, then re-write the
video state from the React `currentTime` closure value. -/
def onStop (cachedTime : ℚ) (s : ExportSt) : ExportSt :=
  let s1 := { s with downloads := s.downloads ++ [s.chunks] }
  let s2 := setStatus ProcStatus.success s1
  let s3 := emit ExpEvent.stopFlushed s2
  { s3 with video :=
      { s3.video with
        currentTime := cachedTime
        muted := false
        playbackRate := 1 } }

/-- The observable outcome of one export run: the video state right
after the `finally` block, and the final state once the queued `onstop`
callback has run. -/
structure ExportResult where
  afterFinally : VideoSt
  final : ExportSt
deriving DecidableEq

/-- Model of `handleExport` from `src/App.tsx`, one run.  `v0` is the decode
engine state at entry, `cachedTime` the React `currentTime` state
captured by the closure, `dataEvents` the sizes of the data events the
recorder emits, `playOk` whether `video.play()` resolves. -/
def handleExport (v0 : VideoSt) (cachedTime : ℚ) (dataEvents : List ℕ)
    (playOk : Bool) : ExportResult :=
  -- setProcessing({status:'transcribing', ...}); setIsPlaying(false)
  let s0 : ExportSt :=
    { video := v0, recording := false, chunks := [], downloads := [],
      status := ProcStatus.transcribing, statusHistory := [ProcStatus.transcribing],
      trace := [] }
  -- mediaRecorder.start()
  let s1 := recorderStart s0
  -- const originalTime = video.currentTime; const originalMuted = video.muted
  let originalTime := s1.video.currentTime
  let originalMuted := s1.video.muted
  -- video.currentTime = 0; video.muted = true
  let s2 := emit ExpEvent.seekIssued
    { s1 with video := { s1.video with currentTime := 0, muted := true } }
  -- await the seeked event
  let s3 := emit ExpEvent.seekAcked s2
  -- data events delivered while the recorder runs
  let s4 := onDataAvailable dataEvents s3
  -- try { await video.play(); await new Promise(r => video.onended = r);
  --       mediaRecorder.stop() }
  -- catch { setProcessing error; mediaRecorder.stop() }
  let s5 :=
    if playOk then
      recorderStop (emit ExpEvent.playStarted
        { s4 with video := { s4.video with onendedAttached := true } })
    else
      recorderStop (setStatus ProcStatus.error (emit ExpEvent.playFailed s4))
  -- finally { video.onended = null; video.muted = originalMuted;
  --           video.currentTime = originalTime }
  let s6 :=
    { s5 with video :=
        { s5.video with
          onendedAttached := false
          muted := originalMuted
          currentTime := originalTime } }
  -- the queued onstop callback now runs
  let s7 := onStop cachedTime s6
  { afterFinally := s6.video, final := s7 }

/-! ### Claims -/

/-- Claim C6: for every non-negative time `s` at millisecond precision
(`s = k/1000` seconds), `parseTime (formatTime s)` equals `s` within one
millisecond (in fact exactly). -/
theorem claim_C6_roundtrip (k : ℕ) :
    |parseTime (formatTime ((k : ℚ) / 1000)) - (k : ℚ) / 1000| ≤ 1 / 1000 := by
  rw [parseTime_formatTime_ms, sub_self, abs_zero]
  norm_num

/-- The override carrying only `textColor: "#f00"`. -/
def overrideTextColorRed : StyleOverride := { textColor := some ("#f00".toList) }

/-- Claim C7: `getEffectiveStyle` is a pure field-wise merge — every field
present in the caption's override wins and every absent field falls back
to the global config; for the override `{textColor:"#f00"}` the result is
the global config with only `textColor` replaced. -/
theorem claim_C7_effectiveStyle (g : StyleConfig) (id0 st0 en0 tx0 : List Char) :
    (∀ o : StyleOverride,
      getEffectiveStyle g (some ⟨id0, st0, en0, tx0, some o⟩) =
        { fontFamily := o.fontFamily.getD g.fontFamily
          fontSize := o.fontSize.getD g.fontSize
          textColor := o.textColor.getD g.textColor
          borderColor := o.borderColor.getD g.borderColor
          borderWidth := o.borderWidth.getD g.borderWidth
          backgroundColor := o.backgroundColor.getD g.backgroundColor
          backgroundOpacity := o.backgroundOpacity.getD g.backgroundOpacity
          animationType := o.animationType.getD g.animationType
          positionY := o.positionY.getD g.positionY
          positionX := o.positionX.getD g.positionX
          fontWeight := o.fontWeight.getD g.fontWeight }) ∧
    getEffectiveStyle g (some ⟨id0, st0, en0, tx0, some overrideTextColorRed⟩) =
      { g with textColor := "#f00".toList } := by
  constructor
  · intro o
    rfl
  · rfl

/-- The overlapping captions `A = [0,5]` and `B = [3,8]` of the claim. -/
def capOverlapA : Caption :=
  ⟨"A".toList, formatTime 0, formatTime 5, "a".toList, none⟩

def capOverlapB : Caption :=
  ⟨"B".toList, formatTime 3, formatTime 8, "b".toList, none⟩

/-- Claim C8: at any time `t` the active caption is the first caption in
existing list order whose closed interval `[start, end]` contains `t`
(so at most one caption is treated active); for `A = [0,5]`, `B = [3,8]`
at `t = 4` both intervals contain 4 and exactly `A` is returned. -/
theorem claim_C8_active_first :
    (∀ (before : List Caption) (c : Caption) (after : List Caption) (t : ℚ),
      (∀ c' ∈ before, ¬ activeAt c' t) → activeAt c t →
      findCaptionAtTime (before ++ c :: after) t = some c) ∧
    findCaptionAtTime [capOverlapA, capOverlapB] 4 = some capOverlapA ∧
    activeAt capOverlapA 4 ∧ activeAt capOverlapB 4 := by
  have h0 : parseTime (formatTime (0 : ℚ)) = 0 := by
    simpa using parseTime_formatTime_nat 0
  have h3 : parseTime (formatTime (3 : ℚ)) = 3 := by
    simpa using parseTime_formatTime_nat 3
  have h5 : parseTime (formatTime (5 : ℚ)) = 5 := by
    simpa using parseTime_formatTime_nat 5
  have h8 : parseTime (formatTime (8 : ℚ)) = 8 := by
    simpa using parseTime_formatTime_nat 8
  have hA : activeAt capOverlapA 4 := by
    unfold activeAt capOverlapA
    rw [h0, h5]
    norm_num
  have hB : activeAt capOverlapB 4 := by
    unfold activeAt capOverlapB
    rw [h3, h8]
    norm_num
  refine ⟨findCaptionAtTime_first, ?_, hA, hB⟩
  exact findCaptionAtTime_first [] capOverlapA [capOverlapB] 4 (by simp) hA

/-- Claim C8 witness: at `t = 6` the first caption is inactive, the
second is active, and the scan returns the second. -/
theorem claim_C8_active_first_witness :
    (∀ c' ∈ [capOverlapA], ¬ activeAt c' 6) ∧ activeAt capOverlapB 6 ∧
    findCaptionAtTime ([capOverlapA] ++ capOverlapB :: []) 6 = some capOverlapB := by
  have h3 : parseTime (formatTime (3 : ℚ)) = 3 := by
    simpa using parseTime_formatTime_nat 3
  have h5 : parseTime (formatTime (5 : ℚ)) = 5 := by
    simpa using parseTime_formatTime_nat 5
  have h8 : parseTime (formatTime (8 : ℚ)) = 8 := by
    simpa using parseTime_formatTime_nat 8
  have hnA : ∀ c' ∈ [capOverlapA], ¬ activeAt c' 6 := by
    intro c' hc'
    rw [List.mem_singleton] at hc'
    subst hc'
    unfold activeAt capOverlapA
    rw [h5]
    norm_num
  have hB : activeAt capOverlapB 6 := by
    unfold activeAt capOverlapB
    rw [h3, h8]
    norm_num
  exact ⟨hnA, hB, claim_C8_active_first.1 [capOverlapA] capOverlapB [] 6 hnA hB⟩

/-- Claim C1 counterexample: an export run entered with the decode engine
muted ends (after the flush callback, on the success path with no
chunks) with the mute flag cleared — the pre-run value is not restored. -/
theorem claim_C1_counterexample :
    (VideoSt.mk 5 true 1 false).muted = true ∧
    (handleExport (VideoSt.mk 5 true 1 false) 5 [] true).final.video.muted = false :=
  ⟨rfl, rfl⟩

/-- Claim C1 (amended): the `finally` block does unconditionally restore
the mute flag and current time on success and failure alike; but the
`onstop` flush callback then runs and sets the mute flag to `false` and
the time to the cached React state value, so the values observed after
the whole run equal the pre-run values only when the engine was unmuted
and the cached time equals the engine time. -/
theorem claim_C1_amended (v0 : VideoSt) (cachedTime : ℚ) (dataEvents : List ℕ)
    (playOk : Bool) :
    ((handleExport v0 cachedTime dataEvents playOk).afterFinally.muted = v0.muted ∧
      (handleExport v0 cachedTime dataEvents playOk).afterFinally.currentTime =
        v0.currentTime) ∧
    (v0.muted = false →
      (handleExport v0 cachedTime dataEvents playOk).final.video.muted = v0.muted) ∧
    (cachedTime = v0.currentTime →
      (handleExport v0 cachedTime dataEvents playOk).final.video.currentTime =
        v0.currentTime) := by
  cases playOk
  · exact ⟨⟨rfl, rfl⟩, fun h => h.symm, fun h => h⟩
  · exact ⟨⟨rfl, rfl⟩, fun h => h.symm, fun h => h⟩

/-- Claim C1 witness: an unmuted engine at time 5 with matching cached
time does come back muted `false` at time 5. -/
theorem claim_C1_amended_witness :
    (VideoSt.mk 5 false 1 false).muted = false ∧
    (5 : ℚ) = (VideoSt.mk 5 false 1 false).currentTime ∧
    (handleExport (VideoSt.mk 5 false 1 false) 5 [] true).final.video.muted =
      (VideoSt.mk 5 false 1 false).muted ∧
    (handleExport (VideoSt.mk 5 false 1 false) 5 [] true).final.video.currentTime =
      (VideoSt.mk 5 false 1 false).currentTime :=
  ⟨rfl, rfl,
    (claim_C1_amended (VideoSt.mk 5 false 1 false) 5 [] true).2.1 rfl,
    (claim_C1_amended (VideoSt.mk 5 false 1 false) 5 [] true).2.2 rfl⟩

/-- Claim C2 counterexample: on a run whose `video.play()` rejects, the
accumulated chunk of size 7 is not discarded — the flush handler still
assembles it into an artifact and delivers it. -/
theorem claim_C2_counterexample :
    (handleExport (VideoSt.mk 5 false 1 false) 5 [7] false).final.downloads = [[7]] ∧
    ([[7]] : List (List ℕ)) ≠ [] :=
  ⟨rfl, by decide⟩

/-- Claim C2 (amended): on the failure path capture is still stopped and a
distinct failure status is reported, but the accumulated partial chunks
are not discarded: the flush handler delivers them as the artifact and
then overwrites the reported status with success. -/
theorem claim_C2_amended (v0 : VideoSt) (cachedTime : ℚ) (dataEvents : List ℕ) :
    ExpEvent.recorderStopped ∈
      (handleExport v0 cachedTime dataEvents false).final.trace ∧
    (handleExport v0 cachedTime dataEvents false).final.recording = false ∧
    ProcStatus.error ∈
      (handleExport v0 cachedTime dataEvents false).final.statusHistory ∧
    (handleExport v0 cachedTime dataEvents false).final.downloads =
      [dataEvents.filter fun z => 0 < z] ∧
    (handleExport v0 cachedTime dataEvents false).final.status = ProcStatus.success := by
  have htr : (handleExport v0 cachedTime dataEvents false).final.trace =
      [ExpEvent.recorderStarted, ExpEvent.seekIssued, ExpEvent.seekAcked,
        ExpEvent.playFailed, ExpEvent.recorderStopped, ExpEvent.stopFlushed] := rfl
  have hst : (handleExport v0 cachedTime dataEvents false).final.statusHistory =
      [ProcStatus.transcribing, ProcStatus.error, ProcStatus.success] := rfl
  refine ⟨?_, rfl, ?_, rfl, rfl⟩
  · rw [htr]
    decide
  · rw [hst]
    decide

/-- The trace of a concrete successful export run. -/
def exportSuccessTrace : List ExpEvent :=
  (handleExport (VideoSt.mk 5 false 1 false) 5 [] true).final.trace

/-- Claim C3 counterexample: in the run's trace capture start strictly
precedes the seek acknowledgement (both occur exactly once), so the seek
is not acknowledged before capture is started. -/
theorem claim_C3_counterexample :
    ExpEvent.seekAcked ∈ exportSuccessTrace ∧
    ExpEvent.recorderStarted ∈ exportSuccessTrace ∧
    exportSuccessTrace.count ExpEvent.seekAcked = 1 ∧
    exportSuccessTrace.count ExpEvent.recorderStarted = 1 ∧
    ¬ (exportSuccessTrace.indexOf ExpEvent.seekAcked <
        exportSuccessTrace.indexOf ExpEvent.recorderStarted) := by
  decide

/-- Claim C3 (amended): the protocol order of the code is: start capture
first, then issue the seek to 0, then await the acknowledgement, and only
then start playback (or observe its failure); capture stop and the flush
follow. -/
theorem claim_C3_amended (v0 : VideoSt) (cachedTime : ℚ) (dataEvents : List ℕ)
    (playOk : Bool) :
    (handleExport v0 cachedTime dataEvents playOk).final.trace =
      [ExpEvent.recorderStarted, ExpEvent.seekIssued, ExpEvent.seekAcked,
        (if playOk then ExpEvent.playStarted else ExpEvent.playFailed),
        ExpEvent.recorderStopped, ExpEvent.stopFlushed] := by
  cases playOk
  · rfl
  · rfl

/-- Claim C4 counterexample: a Move drag of the caption `[2,5]` whose
pointer delta maps to −10 s commits the span `[0, 0.1]` — a duration of
0.1 s, below the claimed 0.2 s minimum. -/
theorem claim_C4_counterexample :
    handleMouseMove ⟨some ("c1".toList), DragType.move, 600, some 2, some 5⟩ 0 60 =
      some (formatTime 0, formatTime (1 / 10)) ∧
    parseTime (formatTime (1 / 10)) - parseTime (formatTime 0) < 1 / 5 := by
  have hA : max (0 : ℚ) (2 + (0 - 600) / 60) = 0 := by
    rw [show (2 : ℚ) + (0 - 600) / 60 = -8 by norm_num]
    exact max_eq_left (by norm_num)
  have hB : max ((0 : ℚ) + 1 / 10) (5 + (0 - 600) / 60) = 1 / 10 := by
    rw [max_eq_left (by norm_num)]
    norm_num
  have h01 : parseTime (formatTime ((1 : ℚ) / 10)) = 1 / 10 := by
    have := parseTime_formatTime_ms 100
    norm_num at this
    exact this
  have h00 : parseTime (formatTime (0 : ℚ)) = 0 := by
    simpa using parseTime_formatTime_nat 0
  constructor
  · rw [handleMouseMove_move_eq, hA, hB]
  · rw [h01, h00]
    norm_num

/-- Claim C4 (amended): resize commits keep a span of at least 0.2 s
(for resize-left provided the caption's fixed end is itself at least
0.2 s); a Move commit guarantees only a 0.1 s minimum. -/
theorem claim_C4_amended (id0 : List Char) (s0 e0 startX clientX zoom : ℚ) :
    (0 ≤ s0 → ∀ cs ce,
      handleMouseMove ⟨some id0, DragType.resizeRight, startX, some s0, some e0⟩
        clientX zoom = some (cs, ce) →
      parseTime cs + 1 / 5 ≤ parseTime ce) ∧
    (1 / 5 ≤ e0 → ∀ cs ce,
      handleMouseMove ⟨some id0, DragType.resizeLeft, startX, some s0, some e0⟩
        clientX zoom = some (cs, ce) →
      parseTime cs + 1 / 5 ≤ parseTime ce) ∧
    (∀ cs ce,
      handleMouseMove ⟨some id0, DragType.move, startX, some s0, some e0⟩
        clientX zoom = some (cs, ce) →
      parseTime cs + 1 / 10 ≤ parseTime ce) := by
  have h200 : ((200 : ℕ) : ℚ) / 1000 = 1 / 5 := by norm_num
  have h100 : ((100 : ℕ) : ℚ) / 1000 = 1 / 10 := by norm_num
  refine ⟨?_, ?_, ?_⟩
  · intro hs0 cs ce hcommit
    rw [handleMouseMove_resizeRight_eq] at hcommit
    simp only [Option.some.injEq, Prod.mk.injEq] at hcommit
    obtain ⟨hcs, hce⟩ := hcommit
    subst hcs
    subst hce
    have hb : s0 + ((200 : ℕ) : ℚ) / 1000 ≤
        max (s0 + 1 / 5) (e0 + (clientX - startX) / zoom) := by
      rw [h200]
      exact le_max_left _ _
    have hsep := parseTime_formatTime_sep hs0 200 hb
    rw [h200] at hsep
    exact hsep
  · intro he0 cs ce hcommit
    rw [handleMouseMove_resizeLeft_eq] at hcommit
    simp only [Option.some.injEq, Prod.mk.injEq] at hcommit
    obtain ⟨hcs, hce⟩ := hcommit
    subst hcs
    subst hce
    have hb : max 0 (min (e0 - 1 / 5) (s0 + (clientX - startX) / zoom)) +
        ((200 : ℕ) : ℚ) / 1000 ≤ e0 := by
      rw [h200]
      have h1 : min (e0 - 1 / 5) (s0 + (clientX - startX) / zoom) ≤ e0 - 1 / 5 :=
        min_le_left _ _
      have h2 : max 0 (min (e0 - 1 / 5) (s0 + (clientX - startX) / zoom)) ≤ e0 - 1 / 5 :=
        max_le (by linarith) h1
      linarith
    have hsep := parseTime_formatTime_sep (le_max_left 0 _) 200 hb
    rw [h200] at hsep
    exact hsep
  · intro cs ce hcommit
    rw [handleMouseMove_move_eq] at hcommit
    simp only [Option.some.injEq, Prod.mk.injEq] at hcommit
    obtain ⟨hcs, hce⟩ := hcommit
    subst hcs
    subst hce
    have hb : max 0 (s0 + (clientX - startX) / zoom) + ((100 : ℕ) : ℚ) / 1000 ≤
        max (max 0 (s0 + (clientX - startX) / zoom) + 1 / 10)
          (e0 + (clientX - startX) / zoom) := by
      rw [h100]
      exact le_max_left _ _
    have hsep := parseTime_formatTime_sep (le_max_left 0 _) 100 hb
    rw [h100] at hsep
    exact hsep

/-- Claim C4 witness: a concrete resize-right drag (`[2,5]`, delta +1 s)
keeps the 0.2 s bound; the hypotheses hold at the instance. -/
theorem claim_C4_amended_witness :
    (0 : ℚ) ≤ 2 ∧
    parseTime (formatTime (2 : ℚ)) + 1 / 5 ≤
      parseTime (formatTime (max ((2 : ℚ) + 1 / 5) (5 + (660 - 600) / 60))) :=
  ⟨by norm_num,
    (claim_C4_amended ("c1".toList) 2 5 600 660 60).1 (by norm_num)
      (formatTime 2) (formatTime (max ((2 : ℚ) + 1 / 5) (5 + (660 - 600) / 60))) rfl⟩

/-- Claim C5 counterexample: the Move drag of `[2,5]` whose pointer delta
maps to −10 s commits an end that parses to 0.1 s — not the claimed 3 s. -/
theorem claim_C5_counterexample :
    handleMouseMove ⟨some ("c5".toList), DragType.move, 600, some 2, some 5⟩ 0 60 =
      some (formatTime 0, formatTime (1 / 10)) ∧
    parseTime (formatTime (1 / 10)) ≠ 3 := by
  have hA : max (0 : ℚ) (2 + (0 - 600) / 60) = 0 := by
    rw [show (2 : ℚ) + (0 - 600) / 60 = -8 by norm_num]
    exact max_eq_left (by norm_num)
  have hB : max ((0 : ℚ) + 1 / 10) (5 + (0 - 600) / 60) = 1 / 10 := by
    rw [max_eq_left (by norm_num)]
    norm_num
  have h01 : parseTime (formatTime ((1 : ℚ) / 10)) = 1 / 10 := by
    have := parseTime_formatTime_ms 100
    norm_num at this
    exact this
  constructor
  · rw [handleMouseMove_move_eq, hA, hB]
  · rw [h01]
    norm_num

/-- Claim C5 (amended): for the caption `[2,5]` and a Move drag whose
pointer delta maps to −10 s, the committed start parses to 0 and the
committed end parses to 0.1 — the end keeps its shifted value clamped to
start + 0.1, so the span collapses instead of being preserved. -/
theorem claim_C5_amended (id0 : List Char) (startX clientX zoom : ℚ)
    (hdelta : (clientX - startX) / zoom = -10) :
    ∀ cs ce,
      handleMouseMove ⟨some id0, DragType.move, startX, some 2, some 5⟩ clientX zoom =
        some (cs, ce) →
      parseTime cs = 0 ∧ parseTime ce = 1 / 10 := by
  intro cs ce hcommit
  rw [handleMouseMove_move_eq] at hcommit
  simp only [Option.some.injEq, Prod.mk.injEq] at hcommit
  obtain ⟨hcs, hce⟩ := hcommit
  subst hcs
  subst hce
  have hA : max (0 : ℚ) (2 + (clientX - startX) / zoom) = 0 := by
    rw [hdelta]
    exact max_eq_left (by norm_num)
  have hB : max ((0 : ℚ) + 1 / 10) (5 + (clientX - startX) / zoom) = 1 / 10 := by
    rw [hdelta]
    rw [max_eq_left (by norm_num)]
    norm_num
  rw [hA, hB]
  constructor
  · simpa using parseTime_formatTime_nat 0
  · have := parseTime_formatTime_ms 100
    norm_num at this
    exact this

/-- Claim C5 witness: the hypothesis and conclusions at the concrete drag
(anchor 600 px, pointer 0 px, zoom 60 px/s). -/
theorem claim_C5_amended_witness :
    ((0 : ℚ) - 600) / 60 = -10 ∧
    parseTime (formatTime (max (0 : ℚ) (2 + (0 - 600) / 60))) = 0 ∧
    parseTime (formatTime (max (max (0 : ℚ) (2 + (0 - 600) / 60) + 1 / 10)
      (5 + (0 - 600) / 60))) = 1 / 10 := by
  refine ⟨by norm_num, ?_⟩
  have h := claim_C5_amended ("c5".toList) 600 0 60 (by norm_num)
    (formatTime (max (0 : ℚ) (2 + (0 - 600) / 60)))
    (formatTime (max (max (0 : ℚ) (2 + (0 - 600) / 60) + 1 / 10) (5 + (0 - 600) / 60)))
    rfl
  exact h

/-- The captions "a" and "a-split" used to break id uniqueness by a split. -/
def capSplitA : Caption := ⟨"a".toList, formatTime 0, formatTime 4, "x".toList, none⟩

def capSplitB : Caption := ⟨"a-split".toList, formatTime 4, formatTime 6, "y".toList, none⟩

/-- Claim C9 counterexample: starting from the pairwise-distinct ids
`["a", "a-split"]`, splitting caption "a" yields the ids
`["a", "a-split", "a-split"]` — no longer pairwise distinct. -/
theorem claim_C9_counterexample :
    (ids [capSplitA, capSplitB]).Nodup ∧
    ¬ (ids (handleSplitCaption [capSplitA, capSplitB] ("a".toList))).Nodup := by
  constructor
  · decide
  · have hfind : ([capSplitA, capSplitB].find? fun c => decide (c.id = "a".toList)) =
        some capSplitA := rfl
    have hperm := handleSplitCaption_ids_perm hfind
    intro hcon
    have := hperm.nodup_iff.mp hcon
    revert this
    decide

/-- Claim C9 (amended): each lifecycle operation behaves on ids as
follows — text/time/style edits keep ids unchanged; delete keeps a
sublist (so preserves distinctness); manual-add appends the id
`"manual-" ++ timestamp` and split appends the parent id suffixed with
`"-split"` (both up to reordering); consequently distinctness is
preserved by add and split only when the derived id is not already
present — splitting the same caption twice duplicates an id. -/
theorem claim_C9_amended :
    (∀ (cs : List Caption) (id : List Char) (u : CaptionUpdate),
      ids (handleCaptionChange cs id u) = ids cs) ∧
    (∀ (cs : List Caption) (id : List Char),
      (ids cs).Nodup → (ids (handleCaptionDelete cs id)).Nodup) ∧
    (∀ (cs : List Caption) (t d : ℚ) (now : List Char),
      List.Perm (ids (addCaption cs t d now)) (ids cs ++ ["manual-".toList ++ now])) ∧
    (∀ (cs : List Caption) (id : List Char) (c : Caption),
      cs.find? (fun c => decide (c.id = id)) = some c →
      List.Perm (ids (handleSplitCaption cs id)) (ids cs ++ [id ++ "-split".toList])) ∧
    (∀ (cs : List Caption) (id : List Char),
      (ids cs).Nodup → ¬ (id ++ "-split".toList) ∈ ids cs →
      (ids (handleSplitCaption cs id)).Nodup) ∧
    (∀ (cs : List Caption) (t d : ℚ) (now : List Char),
      (ids cs).Nodup → ¬ ("manual-".toList ++ now) ∈ ids cs →
      (ids (addCaption cs t d now)).Nodup) := by
  have happend : ∀ (l : List (List Char)) (x : List Char),
      l.Nodup → ¬ x ∈ l → (l ++ [x]).Nodup := by
    intro l x hl hx
    rw [List.nodup_append]
    refine ⟨hl, List.nodup_singleton x, ?_⟩
    intro a ha hax
    rw [List.mem_singleton] at hax
    exact hx (hax ▸ ha)
  refine ⟨handleCaptionChange_ids, ?_, addCaption_ids_perm,
    fun cs id c h => handleSplitCaption_ids_perm h, ?_, ?_⟩
  · intro cs id h
    exact (handleCaptionDelete_ids_sublist cs id).nodup h
  · intro cs id hnd hmem
    cases hfind : cs.find? fun c => decide (c.id = id) with
    | none =>
      unfold handleSplitCaption
      rw [hfind]
      exact hnd
    | some c =>
      exact (handleSplitCaption_ids_perm hfind).nodup_iff.mpr (happend _ _ hnd hmem)
  · intro cs t d now hnd hmem
    exact (addCaption_ids_perm cs t d now).nodup_iff.mpr (happend _ _ hnd hmem)

/-- Claim C9 witness: splitting "a" in the singleton list `["a"]` (where
"a-split" is absent) keeps ids distinct, and adding a caption with a
fresh timestamp keeps ids distinct; hypotheses hold at the instances. -/
theorem claim_C9_amended_witness :
    (ids [capSplitA]).Nodup ∧
    ¬ ("a".toList ++ "-split".toList) ∈ ids [capSplitA] ∧
    (ids (handleSplitCaption [capSplitA] ("a".toList))).Nodup ∧
    ¬ ("manual-".toList ++ "17".toList) ∈ ids [capSplitA] ∧
    (ids (addCaption [capSplitA] 1 2 ("17".toList))).Nodup :=
  ⟨by decide, by decide,
    claim_C9_amended.2.2.2.2.1 [capSplitA] ("a".toList) (by decide) (by decide),
    by decide,
    claim_C9_amended.2.2.2.2.2 [capSplitA] 1 2 ("17".toList) (by decide) (by decide)⟩

/-- Claim C10 counterexample: at playhead `t = 1/2500` s (0.4 ms) with
duration `d = 0`, although `t > d` and `t > 0`, the created caption's
`end` parses equal to its `start` (both format to `00:00:00.000`), so
`end` is not less than `start`. -/
theorem claim_C10_counterexample :
    (0 : ℚ) < 1 / 2500 ∧
    parseTime ((handleAddCaption (1 / 2500) 0 ("17".toList)).endTime) =
      parseTime ((handleAddCaption (1 / 2500) 0 ("17".toList)).start) := by
  constructor
  · norm_num
  · show parseTime (formatTime (min (0 : ℚ) (1 / 2500 + 2))) =
      parseTime (formatTime ((1 : ℚ) / 2500))
    rw [min_eq_left (by norm_num : (0 : ℚ) ≤ 1 / 2500 + 2)]
    rw [parseTime_formatTime 0 le_rfl, parseTime_formatTime (1 / 2500) (by norm_num)]
    norm_num

/-- Claim C10 (amended): manual-add clamps only the end — the created
caption has `start = formatTime t` and `end = formatTime (min d (t+2))`;
whenever `t` exceeds `d` by at least one millisecond the created
caption's `end` parses strictly below its `start` (violating
`start < end`); within the same millisecond the rounding can make them
equal instead. -/
theorem claim_C10_amended (t d : ℚ) (now : List Char) (hd : 0 ≤ d)
    (ht : d + 1 / 1000 ≤ t) :
    (handleAddCaption t d now).start = formatTime t ∧
    (handleAddCaption t d now).endTime = formatTime (min d (t + 2)) ∧
    parseTime ((handleAddCaption t d now).endTime) <
      parseTime ((handleAddCaption t d now).start) := by
  refine ⟨rfl, rfl, ?_⟩
  show parseTime (formatTime (min d (t + 2))) < parseTime (formatTime t)
  rw [min_eq_left (by linarith)]
  have h1 : d + ((1 : ℕ) : ℚ) / 1000 ≤ t := by
    push_cast
    linarith
  have hsep := parseTime_formatTime_sep hd 1 h1
  norm_num at hsep
  linarith

/-- Claim C10 witness: at `t = 1`, `d = 0` the created caption's `end`
parses strictly below its `start`; hypotheses hold at the instance. -/
theorem claim_C10_amended_witness :
    (0 : ℚ) ≤ 0 ∧ (0 : ℚ) + 1 / 1000 ≤ 1 ∧
    parseTime ((handleAddCaption 1 0 ("17".toList)).endTime) <
      parseTime ((handleAddCaption 1 0 ("17".toList)).start) :=
  ⟨le_rfl, by norm_num,
    (claim_C10_amended 1 0 ("17".toList) le_rfl (by norm_num)).2.2⟩
